import Mathlib

/-!
# Verification of the `regen` repository (unicode_regex + regen packages)

This file gives a shallow embedding, in Lean 4, of the algorithmic core of the
repository:

* `unicode_regex/code_point_set.py` — `CodePointSet`: a validated set of
  Unicode code points with range decomposition;
* `unicode_regex/regex_generator.py` — `RegexGenerator`: rendering a code
  point set as a regex pattern;
* `unicode_regex/optimizer.py` — `Optimizer`: structural pattern rewriting
  (`minimize_pattern`, `optimize_readability`, `optimize_pattern`,
  `benchmark_pattern`);
* `regen/regex_generator.py` — `RegexGenerator.create_optimized_pattern` /
  `create_alternation` over literal strings.

Python integers are embedded as `Int`; Python strings as `List Char` (or
`String` where convenient); a Python `set` of code points as `Finset Int`;
code that can raise is embedded in `Except String`.
-/

namespace UnicodeRegex

/-- The largest valid Unicode code point, `0x10FFFF`. -/
def maxCP : Int := 0x10FFFF

/-- `isErr e` is `true` exactly when the embedded Python call raised. -/
def isErr {ε α : Type} : Except ε α → Bool
  | .error _ => true
  | .ok _ => false

/-- Python's `sorted(...)` applied to a finite set of ints: the ascending
list of the elements.  Implemented by lifting insertion sort to the
underlying multiset (well defined because sorting is permutation
invariant), so that it evaluates inside the kernel. -/
def sortedPoints (s : Finset Int) : List Int :=
  Quotient.liftOn s.val (List.insertionSort (· ≤ ·)) (fun a b h =>
    List.eq_of_perm_of_sorted
      (((List.perm_insertionSort _ a).trans h).trans
        (List.perm_insertionSort _ b).symm)
      (List.sorted_insertionSort _ a) (List.sorted_insertionSort _ b))

theorem sortedPoints_perm (s : Finset Int) :
    (sortedPoints s : Multiset Int) = s.val := by
  rcases s with ⟨m, nd⟩
  induction m using Quotient.inductionOn with
  | h l => exact Quotient.sound (List.perm_insertionSort _ l)

theorem mem_sortedPoints {s : Finset Int} {a : Int} :
    a ∈ sortedPoints s ↔ a ∈ s := by
  have h := sortedPoints_perm s
  constructor
  · intro ha
    have : a ∈ (sortedPoints s : Multiset Int) := by simpa using ha
    rw [h] at this
    exact this
  · intro ha
    have : a ∈ (s.val : Multiset Int) := ha
    rw [← h] at this
    simpa using this

theorem sortedPoints_nodup (s : Finset Int) : (sortedPoints s).Nodup := by
  have h := sortedPoints_perm s
  have : Multiset.Nodup (sortedPoints s : Multiset Int) := by
    rw [h]; exact s.nodup
  simpa using this

theorem sortedPoints_sorted (s : Finset Int) :
    (sortedPoints s).Sorted (· ≤ ·) := by
  rcases s with ⟨m, nd⟩
  induction m using Quotient.inductionOn with
  | h l => exact List.sorted_insertionSort _ l

theorem sortedPoints_sorted_lt (s : Finset Int) :
    (sortedPoints s).Sorted (· < ·) :=
  (sortedPoints_sorted s).lt_of_le (sortedPoints_nodup s)

theorem sortedPoints_chain_lt (s : Finset Int) :
    (sortedPoints s).Chain' (· < ·) :=
  List.chain'_iff_pairwise.mpr (sortedPoints_sorted_lt s)

namespace CodePointSet

/-!
## `CodePointSet` (code_point_set.py)

The Python class stores a plain `set` of ints in `self._points`; we embed
that backing store as a `Finset Int`.  Methods that can raise `ValueError`
return `Except String _`.
-/

/-- The invariant the spec claims for every reachable set: every stored
point is a valid Unicode code point. -/
def Inv (s : Finset Int) : Prop := ∀ p ∈ s, 0 ≤ p ∧ p ≤ maxCP

instance (s : Finset Int) : Decidable (Inv s) := by
  unfold Inv; infer_instance

/-- `CodePointSet.add` (code_point_set.py:199): raises `ValueError` unless
`0 <= code_point <= 0x10FFFF`, then inserts the point. -/
def add (s : Finset Int) (code_point : Int) : Except String (Finset Int) :=
  if ¬ (0 ≤ code_point ∧ code_point ≤ maxCP) then
    .error "Invalid code point"
  else
    .ok (insert code_point s)

/-- `CodePointSet.add_range` (code_point_set.py:212): raises unless
`0 <= start <= end <= 0x10FFFF`, then inserts every point of the inclusive
range (`range(start, end + 1)` = `Finset.Icc start end`). -/
def add_range (s : Finset Int) (start stop : Int) : Except String (Finset Int) :=
  if ¬ (0 ≤ start ∧ start ≤ stop ∧ stop ≤ maxCP) then
    .error "Invalid code point range"
  else
    .ok (s ∪ Finset.Icc start stop)

/-- `CodePointSet.remove` (code_point_set.py:227): `self._points.discard(...)`
— no validation, never raises. -/
def remove (s : Finset Int) (code_point : Int) : Except String (Finset Int) :=
  .ok (s.erase code_point)

/-- `CodePointSet.remove_range` (code_point_set.py:235): discards every
point of `range(start, end + 1)`; no validation, never raises. -/
def remove_range (s : Finset Int) (start stop : Int) : Except String (Finset Int) :=
  .ok (s \ Finset.Icc start stop)

/-- `CodePointSet.__init__` (code_point_set.py:112): `add` every element of
the supplied collection; the first invalid element aborts construction. -/
def fromList (l : List Int) : Except String (Finset Int) :=
  l.foldlM add ∅

/-- `CodePointSet.from_range` (code_point_set.py:152). -/
def from_range (start stop : Int) : Except String (Finset Int) :=
  add_range ∅ start stop

/-- `CodePointSet.from_single` (code_point_set.py:170). -/
def from_single (code_point : Int) : Except String (Finset Int) :=
  from_range code_point code_point

/-- `CodePointSet.from_string` (code_point_set.py:184): `add(ord(char))`
for each character of the string. -/
def from_string (text : List Char) : Except String (Finset Int) :=
  (text.map (fun c => (c.toNat : Int))).foldlM add ∅

/-- One step of `CodePointSet.__invert__` (code_point_set.py:123): walk the
sorted points, `add_range` each gap `[current, point-1]`, finish with
`[current, 0x10FFFF]` if anything is left. -/
def invertGo (acc : Finset Int) (current : Int) : List Int → Except String (Finset Int)
  | [] =>
      if current ≤ maxCP then add_range acc current maxCP else .ok acc
  | point :: rest => do
      let acc' ← if current < point then add_range acc current (point - 1) else .ok acc
      invertGo acc' (point + 1) rest

/-- `CodePointSet.__invert__` (code_point_set.py:123): complement relative
to the full code space, built operationally from the sorted points. -/
def complement (s : Finset Int) : Except String (Finset Int) :=
  invertGo ∅ 0 (sortedPoints s)

/-- `CodePointSet.__or__` (code_point_set.py:272): plain set union of the
backing stores, no validation. -/
def union (s t : Finset Int) : Finset Int := s ∪ t

/-- `CodePointSet.__and__` (code_point_set.py:285). -/
def inter (s t : Finset Int) : Finset Int := s ∩ t

/-- `CodePointSet.__sub__` (code_point_set.py:298). -/
def diff (s t : Finset Int) : Finset Int := s \ t

/-- `CodePointSet.copy` (code_point_set.py:319): a fresh set with a copy of
the backing store (value-identical). -/
def copy (s : Finset Int) : Finset Int := s

/-- The loop of `CodePointSet.get_ranges` (code_point_set.py:344):
`start`/`e` hold the range being grown; a point equal to `e + 1` extends
it, any other point closes it and starts a new one. -/
def rangesAux (start e : Int) : List Int → List (Int × Int)
  | [] => [(start, e)]
  | point :: rest =>
      if point = e + 1 then rangesAux start point rest
      else (start, e) :: rangesAux point point rest

/-- Range merging over an already-sorted list of points
(`get_ranges` body after `points = sorted(self._points)`). -/
def rangesOf : List Int → List (Int × Int)
  | [] => []
  | p :: ps => rangesAux p p ps

/-- `CodePointSet.get_ranges` (code_point_set.py:329): decompose the set
into maximal contiguous `(start, end)` ranges, ascending. -/
def get_ranges (s : Finset Int) : List (Int × Int) :=
  rangesOf (sortedPoints s)

/-- Every range produced by the `get_ranges` loop is well formed
(`start ≤ end`). -/
theorem rangesAux_bounds (rest : List Int) : ∀ start e : Int, start ≤ e →
    ∀ r ∈ rangesAux start e rest, r.1 ≤ r.2 := by
  induction rest with
  | nil =>
      intro start e hse r hr
      rw [rangesAux, List.mem_singleton] at hr
      subst hr
      exact hse
  | cons point rest ih =>
      intro start e hse r hr
      rw [rangesAux] at hr
      by_cases hpe : point = e + 1
      · rw [if_pos hpe] at hr
        exact ih start point (by omega) r hr
      · rw [if_neg hpe] at hr
        rcases List.mem_cons.mp hr with h | h
        · subst h; exact hse
        · exact ih point point le_rfl r h

/-- The first range produced by the `get_ranges` loop starts at `start`. -/
theorem rangesAux_head (rest : List Int) : ∀ start e : Int,
    ∃ b tl, rangesAux start e rest = (start, b) :: tl := by
  induction rest with
  | nil => intro start e; exact ⟨e, [], rfl⟩
  | cons point rest ih =>
      intro start e
      by_cases hpe : point = e + 1
      · rw [rangesAux, if_pos hpe]; exact ih start point
      · rw [rangesAux, if_neg hpe]
        obtain ⟨b, tl, h⟩ := ih point point
        exact ⟨e, rangesAux point point rest, rfl⟩

/-- Consecutive ranges produced by the `get_ranges` loop are separated by
a gap of at least one point (`r.end + 1 < next.start`): they are
pairwise disjoint, ascending and maximal. -/
theorem rangesAux_chain (rest : List Int) : ∀ start e : Int,
    List.Chain' (· < ·) (e :: rest) →
    List.Chain' (fun r t => r.2 + 1 < t.1) (rangesAux start e rest) := by
  induction rest with
  | nil => intro start e _; rw [rangesAux]; exact List.chain'_singleton _
  | cons point rest ih =>
      intro start e hch
      obtain ⟨hlt, htail⟩ := List.chain'_cons.mp hch
      by_cases hpe : point = e + 1
      · rw [rangesAux, if_pos hpe]
        exact ih start point htail
      · rw [rangesAux, if_neg hpe]
        obtain ⟨b, tl, heq⟩ := rangesAux_head rest point point
        rw [heq]
        refine List.chain'_cons.mpr ⟨?_, heq ▸ ih point point htail⟩
        show e + 1 < point
        omega

/-- The union of the ranges produced by the `get_ranges` loop is the
interval `[start, e]` together with the remaining points. -/
theorem rangesAux_mem (rest : List Int) : ∀ start e : Int, start ≤ e →
    List.Chain' (· < ·) (e :: rest) → ∀ x : Int,
    (∃ r ∈ rangesAux start e rest, r.1 ≤ x ∧ x ≤ r.2) ↔
      ((start ≤ x ∧ x ≤ e) ∨ x ∈ rest) := by
  induction rest with
  | nil =>
      intro start e _ _ x
      rw [rangesAux]
      simp
  | cons point rest ih =>
      intro start e hse hch x
      obtain ⟨hlt, htail⟩ := List.chain'_cons.mp hch
      by_cases hpe : point = e + 1
      · rw [rangesAux, if_pos hpe, ih start point (by omega) htail x]
        constructor
        · rintro (⟨h1, h2⟩ | hx)
          · by_cases hxe : x ≤ e
            · exact Or.inl ⟨h1, hxe⟩
            · exact Or.inr (List.mem_cons.mpr (Or.inl (by omega)))
          · exact Or.inr (List.mem_cons.mpr (Or.inr hx))
        · rintro (⟨h1, h2⟩ | hx)
          · exact Or.inl ⟨h1, by omega⟩
          · rcases List.mem_cons.mp hx with h | h
            · exact Or.inl ⟨by omega, by omega⟩
            · exact Or.inr h
      · rw [rangesAux, if_neg hpe]
        constructor
        · rintro ⟨r, hr, hx1, hx2⟩
          rcases List.mem_cons.mp hr with h | h
          · subst h; exact Or.inl ⟨hx1, hx2⟩
          · rcases (ih point point le_rfl htail x).mp ⟨r, h, hx1, hx2⟩ with
              ⟨h1, h2⟩ | h3
            · exact Or.inr (List.mem_cons.mpr (Or.inl (by omega)))
            · exact Or.inr (List.mem_cons.mpr (Or.inr h3))
        · rintro (⟨h1, h2⟩ | hx)
          · exact ⟨(start, e), List.mem_cons_self _ _, h1, h2⟩
          · rcases List.mem_cons.mp hx with h | h
            · obtain ⟨r, hr, hx1, hx2⟩ :=
                (ih point point le_rfl htail x).mpr (Or.inl ⟨le_of_eq h.symm, le_of_eq h⟩)
              exact ⟨r, List.mem_cons.mpr (Or.inr hr), hx1, hx2⟩
            · obtain ⟨r, hr, hx1, hx2⟩ :=
                (ih point point le_rfl htail x).mpr (Or.inr h)
              exact ⟨r, List.mem_cons.mpr (Or.inr hr), hx1, hx2⟩

/-- Membership in the re-flattening (fold of interval unions) of a range
list. -/
theorem mem_foldrIcc (l : List (Int × Int)) (x : Int) :
    (x ∈ l.foldr (fun r acc => Finset.Icc r.1 r.2 ∪ acc) ∅) ↔
      ∃ r ∈ l, r.1 ≤ x ∧ x ≤ r.2 := by
  induction l with
  | nil => simp
  | cons r l ih => simp [Finset.mem_union, Finset.mem_Icc, ih]

end CodePointSet

/-!
## C7 — `get_ranges` decomposition and round trip

The loop sorts the points once and merges consecutive integers
(code_point_set.py:329-351); the produced ranges are valid, ascending,
pairwise disjoint, maximal, cover exactly the members, and re-flattening
them reconstructs the set.
-/

/-- C7: `get_ranges` yields ranges that are well formed (`start ≤ end`),
pairwise disjoint, ascending, and maximal (consecutive ranges are
separated by at least one absent point); their union is exactly the
membership of the set, and re-flattening them (union of the inclusive
intervals) reconstructs the original set. -/
theorem C7_theorem (s : Finset Int) :
    (∀ r ∈ CodePointSet.get_ranges s, r.1 ≤ r.2) ∧
    List.Chain' (fun r t => r.2 + 1 < t.1) (CodePointSet.get_ranges s) ∧
    (∀ x : Int, x ∈ s ↔ ∃ r ∈ CodePointSet.get_ranges s, r.1 ≤ x ∧ x ≤ r.2) ∧
    (CodePointSet.get_ranges s).foldr (fun r acc => Finset.Icc r.1 r.2 ∪ acc) ∅ = s := by
  have hch := sortedPoints_chain_lt s
  have hmem : ∀ x : Int, x ∈ s ↔
      ∃ r ∈ CodePointSet.get_ranges s, r.1 ≤ x ∧ x ≤ r.2 := by
    intro x
    rw [← mem_sortedPoints]
    unfold CodePointSet.get_ranges
    cases hsp : sortedPoints s with
    | nil => simp [CodePointSet.rangesOf]
    | cons p ps =>
        rw [hsp] at hch
        show x ∈ p :: ps ↔ _
        rw [show CodePointSet.rangesOf (p :: ps) = CodePointSet.rangesAux p p ps from rfl,
          CodePointSet.rangesAux_mem ps p p le_rfl hch x, List.mem_cons]
        constructor
        · rintro (h | h)
          · exact Or.inl ⟨le_of_eq h.symm, le_of_eq h⟩
          · exact Or.inr h
        · rintro (⟨h1, h2⟩ | h)
          · exact Or.inl (le_antisymm h2 h1)
          · exact Or.inr h
  refine ⟨?_, ?_, hmem, ?_⟩
  · unfold CodePointSet.get_ranges
    cases hsp : sortedPoints s with
    | nil => simp [CodePointSet.rangesOf]
    | cons p ps =>
        exact CodePointSet.rangesAux_bounds ps p p le_rfl
  · unfold CodePointSet.get_ranges
    cases hsp : sortedPoints s with
    | nil => simp [CodePointSet.rangesOf]
    | cons p ps =>
        rw [hsp] at hch
        exact CodePointSet.rangesAux_chain ps p p hch
  · refine Finset.ext fun x => ?_
    rw [CodePointSet.mem_foldrIcc]
    exact (hmem x).symm

/-!
## C6 — validation of point-accepting operations

`add` and `add_range` validate their input (code_point_set.py:208, 222)
and raise on out-of-range points.  `remove` and `remove_range`
(code_point_set.py:227, 235) call `set.discard` with no validation and can
never raise, so the claim that *every* point-accepting operation fails on
an out-of-range point is false.
-/

/-- Counterexample to C6: removing the out-of-range point `-1` from the
set `{65}` does not raise — `CodePointSet.remove` performs no validation
and returns normally (leaving the set unchanged). -/
theorem C6_counterexample :
    CodePointSet.remove ({65} : Finset Int) (-1) = .ok {65} := by
  unfold CodePointSet.remove
  congr 1

/-- C6 (amended): for an integer `p` outside `[0, 0x10FFFF]`, `add`,
`add_range` (with `p` at either end) fail with a `ValueError`, while
`remove` and `remove_range` never fail; on a set satisfying the code-point
invariant, removing such a `p` is a no-op. -/
theorem C6_theorem (s : Finset Int) (p q a b : Int)
    (hp : p < 0 ∨ maxCP < p) (hs : CodePointSet.Inv s) :
    isErr (CodePointSet.add s p) = true ∧
    isErr (CodePointSet.add_range s p q) = true ∧
    isErr (CodePointSet.add_range s q p) = true ∧
    CodePointSet.remove s p = .ok s ∧
    isErr (CodePointSet.remove_range s a b) = false := by
  have hpn : p ∉ s := fun hmem => by
    rcases hs p hmem with ⟨h0, h1⟩
    rcases hp with h | h
    · exact absurd h0 (not_le.mpr h)
    · exact absurd h1 (not_le.mpr h)
  refine ⟨?_, ?_, ?_, ?_, rfl⟩
  · unfold CodePointSet.add
    rw [if_pos]
    · rfl
    · rintro ⟨h0, h1⟩
      rcases hp with h | h
      · exact absurd h0 (not_le.mpr h)
      · exact absurd h1 (not_le.mpr h)
  · unfold CodePointSet.add_range
    rw [if_pos]
    · rfl
    · rintro ⟨h0, _, _⟩
      rcases hp with h | h
      · exact absurd h0 (not_le.mpr h)
      · omega
  · unfold CodePointSet.add_range
    rw [if_pos]
    · rfl
    · rintro ⟨_, _, _⟩
      rcases hp with h | h
      · omega
      · omega
  · unfold CodePointSet.remove
    rw [Finset.erase_eq_of_not_mem hpn]

namespace CodePointSet

theorem inv_empty : Inv (∅ : Finset Int) := by
  intro p hp
  exact absurd hp (Finset.not_mem_empty p)

theorem add_inv {s s' : Finset Int} {p : Int} (h : add s p = .ok s')
    (hs : Inv s) : Inv s' := by
  unfold add at h
  by_cases hc : ¬ (0 ≤ p ∧ p ≤ maxCP)
  · rw [if_pos hc] at h; cases h
  · rw [if_neg hc] at h
    cases h
    push_neg at hc
    intro q hq
    rcases Finset.mem_insert.mp hq with hq | hq
    · subst hq; exact ⟨hc.1, hc.2⟩
    · exact hs q hq

theorem add_range_inv {s s' : Finset Int} {a b : Int}
    (h : add_range s a b = .ok s') (hs : Inv s) : Inv s' := by
  unfold add_range at h
  by_cases hc : ¬ (0 ≤ a ∧ a ≤ b ∧ b ≤ maxCP)
  · rw [if_pos hc] at h; cases h
  · rw [if_neg hc] at h
    cases h
    push_neg at hc
    intro q hq
    rcases Finset.mem_union.mp hq with hq | hq
    · exact hs q hq
    · rcases Finset.mem_Icc.mp hq with ⟨h1, h2⟩
      exact ⟨le_trans hc.1 h1, le_trans h2 hc.2.2⟩

theorem foldlM_add_inv : ∀ (l : List Int) (acc t : Finset Int),
    l.foldlM add acc = .ok t → Inv acc → Inv t := by
  intro l
  induction l with
  | nil =>
      intro acc t h hi
      cases h
      exact hi
  | cons x xs ih =>
      intro acc t h hi
      rw [List.foldlM_cons] at h
      cases hx : add acc x with
      | error e => rw [hx] at h; cases h
      | ok acc' =>
          rw [hx] at h
          exact ih acc' t h (add_inv hx hi)

theorem fromList_inv {l : List Int} {s : Finset Int}
    (h : fromList l = .ok s) : Inv s :=
  foldlM_add_inv l ∅ s h inv_empty

theorem from_range_inv {a b : Int} {s : Finset Int}
    (h : from_range a b = .ok s) : Inv s :=
  add_range_inv h inv_empty

theorem from_string_inv {t : List Char} {s : Finset Int}
    (h : from_string t = .ok s) : Inv s :=
  foldlM_add_inv _ ∅ s h inv_empty

theorem invertGo_inv : ∀ (pts : List Int) (acc : Finset Int) (current : Int)
    (t : Finset Int), invertGo acc current pts = .ok t → Inv acc → Inv t := by
  intro pts
  induction pts with
  | nil =>
      intro acc current t h hi
      rw [invertGo] at h
      by_cases hc : current ≤ maxCP
      · rw [if_pos hc] at h
        exact add_range_inv h hi
      · rw [if_neg hc] at h
        cases h
        exact hi
  | cons point rest ih =>
      intro acc current t h hi
      rw [invertGo] at h
      by_cases hc : current < point
      · rw [if_pos hc] at h
        cases hg : add_range acc current (point - 1) with
        | error e => rw [hg] at h; cases h
        | ok acc' =>
            rw [hg] at h
            exact ih acc' (point + 1) t h (add_range_inv hg hi)
      · rw [if_neg hc] at h
        exact ih acc (point + 1) t h hi

theorem complement_inv {s t : Finset Int} (h : complement s = .ok t) :
    Inv t :=
  invertGo_inv (sortedPoints s) ∅ 0 t h inv_empty

theorem erase_inv {s : Finset Int} {p : Int} (hs : Inv s) :
    Inv (s.erase p) := fun q hq => hs q (Finset.mem_of_mem_erase hq)

theorem sdiff_inv {s t : Finset Int} (hs : Inv s) : Inv (s \ t) :=
  fun q hq => hs q (Finset.mem_sdiff.mp hq).1

theorem union_inv {s t : Finset Int} (hs : Inv s) (ht : Inv t) :
    Inv (s ∪ t) := fun q hq => by
  rcases Finset.mem_union.mp hq with h | h
  · exact hs q h
  · exact ht q h

theorem inter_inv {s t : Finset Int} (hs : Inv s) : Inv (s ∩ t) :=
  fun q hq => hs q (Finset.mem_inter.mp hq).1

end CodePointSet

/-!
## C10 — the code-point invariant of every reachable set

Every `CodePointSet` produced by the public constructors and closed under
the public operations holds only integers in `[0, 0x10FFFF]`.
-/

/-- The sets reachable through the public `CodePointSet` API:
the constructors (`__init__` from a collection, `from_range`,
`from_single`, `from_string`) and the operations (`add`, `add_range`,
`remove`, `remove_range`, `|`, `&`, `-`, `~`, `copy`). -/
inductive Reachable : Finset Int → Prop
  | init (l : List Int) (s : Finset Int) :
      CodePointSet.fromList l = .ok s → Reachable s
  | ofRange (a b : Int) (s : Finset Int) :
      CodePointSet.from_range a b = .ok s → Reachable s
  | ofSingle (p : Int) (s : Finset Int) :
      CodePointSet.from_single p = .ok s → Reachable s
  | ofString (t : List Char) (s : Finset Int) :
      CodePointSet.from_string t = .ok s → Reachable s
  | add (s : Finset Int) (p : Int) (s' : Finset Int) :
      Reachable s → CodePointSet.add s p = .ok s' → Reachable s'
  | addRange (s : Finset Int) (a b : Int) (s' : Finset Int) :
      Reachable s → CodePointSet.add_range s a b = .ok s' → Reachable s'
  | remove (s : Finset Int) (p : Int) (s' : Finset Int) :
      Reachable s → CodePointSet.remove s p = .ok s' → Reachable s'
  | removeRange (s : Finset Int) (a b : Int) (s' : Finset Int) :
      Reachable s → CodePointSet.remove_range s a b = .ok s' → Reachable s'
  | union (s t : Finset Int) :
      Reachable s → Reachable t → Reachable (CodePointSet.union s t)
  | inter (s t : Finset Int) :
      Reachable s → Reachable t → Reachable (CodePointSet.inter s t)
  | diff (s t : Finset Int) :
      Reachable s → Reachable t → Reachable (CodePointSet.diff s t)
  | compl (s s' : Finset Int) :
      Reachable s → CodePointSet.complement s = .ok s' → Reachable s'
  | copy (s : Finset Int) : Reachable s → Reachable (CodePointSet.copy s)

/-- C10: every `CodePointSet` reachable through the public operations
contains only integers in `[0, 0x10FFFF]`; every operation preserves this
invariant. -/
theorem C10_theorem (s : Finset Int) (h : Reachable s) :
    CodePointSet.Inv s := by
  induction h with
  | init l s hs => exact CodePointSet.fromList_inv hs
  | ofRange a b s hs => exact CodePointSet.from_range_inv hs
  | ofSingle p s hs => exact CodePointSet.from_range_inv hs
  | ofString t s hs => exact CodePointSet.from_string_inv hs
  | add s p s' _ hs ih => exact CodePointSet.add_inv hs ih
  | addRange s a b s' _ hs ih => exact CodePointSet.add_range_inv hs ih
  | remove s p s' _ hs ih =>
      cases hs
      exact CodePointSet.erase_inv ih
  | removeRange s a b s' _ hs ih =>
      cases hs
      exact CodePointSet.sdiff_inv ih
  | union s t _ _ ihs iht => exact CodePointSet.union_inv ihs iht
  | inter s t _ _ ihs _ => exact CodePointSet.inter_inv ihs
  | diff s t _ _ ihs _ => exact CodePointSet.sdiff_inv ihs
  | compl s s' _ hs _ => exact CodePointSet.complement_inv hs
  | copy s _ ih => exact ih

/-- Witness for C10: the concrete set `{65}` built by `from_single 65` is
reachable, and the theorem yields its invariant. -/
theorem C10_witness :
    Reachable ({65} : Finset Int) ∧ CodePointSet.Inv ({65} : Finset Int) := by
  have hok : CodePointSet.from_single 65 = .ok ({65} : Finset Int) := by
    unfold CodePointSet.from_single CodePointSet.from_range CodePointSet.add_range
    rw [if_neg (by decide)]
    congr 1
  have hre : Reachable ({65} : Finset Int) := Reachable.ofSingle 65 _ hok
  exact ⟨hre, C10_theorem {65} hre⟩

/-- Witness for C6 at `s = {65}`, `p = -1`, `q = a = b = 0`. -/
theorem C6_witness :
    (((-1 : Int) < 0 ∨ maxCP < -1) ∧ CodePointSet.Inv {65}) ∧
    (isErr (CodePointSet.add {65} (-1)) = true ∧
     isErr (CodePointSet.add_range {65} (-1) 0) = true ∧
     isErr (CodePointSet.add_range {65} 0 (-1)) = true ∧
     CodePointSet.remove ({65} : Finset Int) (-1) = .ok {65} ∧
     isErr (CodePointSet.remove_range {65} 0 0) = false) :=
  ⟨⟨Or.inl (by decide), by decide⟩,
   C6_theorem {65} (-1) 0 0 0 (Or.inl (by decide)) (by decide)⟩

namespace RegexGenerator

/-!
## `RegexGenerator` (unicode_regex/regex_generator.py)

`generate_pattern` compares its argument against the `COMMON_RANGES`
class attribute with `==`.  `CodePointSet` defines no `__eq__`, so CPython
falls back to `object.__eq__`, which compares object identity (and a raw
`set` argument compares unequal to a `CodePointSet` for the same reason).
We model a Python `CodePointSet` object as its identity (a numeric object
id) paired with its value, and `==` as comparison of the ids.
-/

/-- A Python `CodePointSet` *object*: an object identity plus the backing
store.  Two distinct objects carry distinct `oid`s even when their
`points` agree. -/
structure PyCodePointSet where
  oid : Nat
  points : Finset Int

/-- Python `a == b` on `CodePointSet` operands: object identity, because
the class defines no `__eq__` (code_point_set.py:98-351). -/
def pyEq (a b : PyCodePointSet) : Bool := a.oid == b.oid

/-- Membership of `COMMON_RANGES[r'\d']` (regex_generator.py:29):
`range(0x0030, 0x003A)`. -/
def digitPoints : Finset Int := Finset.Icc 0x30 0x39

/-- Membership of `COMMON_RANGES[r'\w']` (regex_generator.py:30-35). -/
def wordPoints : Finset Int :=
  Finset.Icc 0x30 0x39 ∪ Finset.Icc 0x41 0x5A ∪ Finset.Icc 0x61 0x7A ∪ {0x5F}

/-- Membership of `COMMON_RANGES[r'\s']` (regex_generator.py:36). -/
def spacePoints : Finset Int := {0x20, 0x9, 0xA, 0xB, 0xC, 0xD}

/-- `RegexGenerator.COMMON_RANGES` (regex_generator.py:28-37): three
`CodePointSet` objects created once at class-definition time.  Their
object ids (0, 1, 2 here) differ from the id of every set a caller builds
later (callers get ids ≥ 3). -/
def COMMON_RANGES : List (String × PyCodePointSet) :=
  [("\\d", ⟨0, digitPoints⟩), ("\\w", ⟨1, wordPoints⟩), ("\\s", ⟨2, spacePoints⟩)]

/-- `RegexGenerator._needs_escape` (regex_generator.py:270): membership in
the literal `'.^$*+?{}[]\|()'`. -/
def needs_escape (c : Char) : Bool := c ∈ ".^$*+?{}[]\\|()".toList

/-- Python `chr(point)`.  Lean's `Char.ofNat` sends the surrogate range to
`'\0'`; it is never evaluated there in this file. -/
def pyChr (cp : Int) : Char := Char.ofNat cp.toNat

/-- A single code point as rendered inside `_ranges_to_pattern`
(regex_generator.py:242-243, 248-249): `re.escape(chr(p))` when
`_needs_escape(chr(p))`, else the bare character.  (`re.escape` of a
single character of the `_needs_escape` set prepends one backslash.)  Note
the code always renders the *literal* character; the helper
`_format_code_point` (regex_generator.py:60-75), which would produce
`\uXXXX`/`\U........` escapes, is never called. -/
def fmtPoint (cp : Int) : String :=
  let c := pyChr cp
  if needs_escape c then String.mk ['\\', c] else String.mk [c]

/-- The piece built for one `(start, end)` range in the loop of
`_ranges_to_pattern` (regex_generator.py:246-261). -/
def rangeItem (a b : Int) (prioritize : String) : String :=
  if a = b then fmtPoint a
  else
    fmtPoint a ++ (if prioritize = "readability" then " - " else "-") ++ fmtPoint b

/-- `RegexGenerator._ranges_to_pattern` (regex_generator.py:224-268). -/
def ranges_to_pattern (ranges : List (Int × Int)) (prioritize : String) : String :=
  match ranges with
  | [] => "[]"
  | [(a, b)] =>
      if a = b then fmtPoint a
      else "[" ++ rangeItem a b prioritize ++ "]"
  | _ =>
      let pats := ranges.map fun r => rangeItem r.1 r.2 prioritize
      if prioritize = "readability" then "[" ++ String.intercalate " | " pats ++ "]"
      else "[" ++ String.join pats ++ "]"

/-- `RegexGenerator.generate_pattern` (regex_generator.py:77-113): empty
set → `'[]'`; first `COMMON_RANGES` entry whose set compares `==` to the
argument → its shorthand (object identity, see `pyEq`); otherwise the
sort-and-merge decomposition `_get_ranges` (regex_generator.py:195-222,
the same loop as `get_ranges`) rendered by `_ranges_to_pattern`.  The
`_pattern_cache` memoises exactly this value and is not modelled. -/
def generate_pattern (s : PyCodePointSet) (prioritize : String) : String :=
  if s.points = ∅ then "[]"
  else
    match COMMON_RANGES.find? (fun pr => pyEq s pr.2) with
    | some pr => pr.1
    | none => ranges_to_pattern (CodePointSet.rangesOf (sortedPoints s.points)) prioritize

/-- `RegexGenerator.generate_range_pattern` (regex_generator.py:140-160). -/
def generate_range_pattern (start stop : Int) : Except String String :=
  if start > stop then .error "Invalid range"
  else .ok (ranges_to_pattern [(start, stop)] "size")

end RegexGenerator

/-!
## C1, C2, C3 — the `==` identity bug and the literal-character rendering

C1: the `COMMON_RANGES` shortcut never fires for a caller-built set,
because `==` on `CodePointSet` is object identity; the code's own
docstring (regex_generator.py:92-95) and the tests
(`src/tests/unit/test_regex_generator.py::test_digit_range`,
`test_common_ranges`) expect `'\d'`.

C2: two distinct `CodePointSet` objects with identical membership compare
unequal, because the class defines no `__eq__`.

C3: `_ranges_to_pattern` renders every code point as the literal
character `chr(p)` (escaped only for ASCII metacharacters); the
documented escape forms live in the never-called `_format_code_point`,
and the tests (`test_unicode_characters`, `test_supplementary_plane`)
expect `'Α'` / `'\U00010400'`.
-/

/-- C1 (code bug): a freshly constructed `CodePointSet` object whose
membership is exactly the ASCII digits (`digitPoints`, here with object
id 100 ≠ 0) makes `generate_pattern` return `'[0-9]'`, not the shorthand
`'\d'` promised by the claim, the docstring and the tests: the `==`
against `COMMON_RANGES` compares object identity and never matches. -/
theorem C1_theorem :
    RegexGenerator.generate_pattern ⟨100, RegexGenerator.digitPoints⟩ "size"
      = "[0-9]" ∧
    ("[0-9]" : String) ≠ "\\d" := by decide

/-- C2 (code bug): two `CodePointSet` objects with identical point
membership `{65}` but distinct identities compare unequal under Python
`==`, because `CodePointSet` defines no `__eq__` and CPython falls back to
identity comparison. -/
theorem C2_theorem :
    (RegexGenerator.PyCodePointSet.mk 3 {65}).points
      = (RegexGenerator.PyCodePointSet.mk 4 {65}).points ∧
    RegexGenerator.pyEq ⟨3, {65}⟩ ⟨4, {65}⟩ = false := by decide

/-- C3 (code bug): `generate_pattern` renders the supplementary-plane
point U+10400 and the BMP point U+0391 as bare literal characters, not as
the `\U00010400` / `Α` escapes required by the claim and asserted by
the repository's unit tests: `_ranges_to_pattern` calls `chr` directly
and `_format_code_point` is dead code. -/
theorem C3_theorem :
    RegexGenerator.generate_pattern ⟨100, {0x10400}⟩ "size"
      = String.mk [Char.ofNat 0x10400] ∧
    RegexGenerator.generate_pattern ⟨100, {0x10400}⟩ "size" ≠ "\\U00010400" ∧
    RegexGenerator.generate_pattern ⟨101, {0x0391}⟩ "size"
      = String.mk [Char.ofNat 0x0391] ∧
    RegexGenerator.generate_pattern ⟨101, {0x0391}⟩ "size" ≠ "\\u0391" := by
  decide

namespace Optimizer

/-!
## `Optimizer` (unicode_regex/optimizer.py)

Patterns are embedded as `List Char` (a Python `str` is a sequence of
characters; every slice and index below mirrors the Python slice).
-/

/-- Python `'][' in pattern`: the two-character separator occurs. -/
def hasBB : List Char → Bool
  | ']' :: '[' :: _ => true
  | _ :: rest => hasBB rest
  | [] => false

/-- Python `pattern.split('][')`: split on the two-character separator,
leftmost occurrence first, non-overlapping. -/
def splitBB : List Char → List (List Char)
  | [] => [[]]
  | ']' :: '[' :: rest => [] :: splitBB rest
  | c :: rest =>
      match splitBB rest with
      | [] => [[c]]
      | h :: t => (c :: h) :: t

/-- Python `part.strip('[]')`: drop every leading and trailing `'['` or
`']'`. -/
def stripBrackets (l : List Char) : List Char :=
  ((l.dropWhile fun c => c = '[' || c = ']').reverse.dropWhile
    fun c => c = '[' || c = ']').reverse

/-- `Optimizer.minimize_pattern` (optimizer.py:93-137): three sequential
single-step rewrites — collapse `[x]` to `x` for a single non-backslash
character; collapse `(?:content)` to `content` when `content` has no
`'|'`; merge the `split('][')` parts into one class when each part other
than the first starts with `'['` and each part other than the last ends
with `']'`.  Each `if` whose inner condition fails falls through, exactly
as in the Python. -/
def minimize_pattern (p : List Char) : List Char :=
  if p = [] then p
  else if p.head? = some '[' ∧ p.getLast? = some ']' ∧
      (p.drop 1).dropLast.length = 1 ∧ (p.drop 1).dropLast.head? ≠ some '\\' then
    (p.drop 1).dropLast
  else if "(?:".toList.isPrefixOf p ∧ p.getLast? = some ')' ∧
      ¬ (p.drop 3).dropLast.contains '|' then
    (p.drop 3).dropLast
  else if hasBB p then
    let parts := splitBB p
    if (parts.drop 1).all (fun q => q.head? == some '[') ∧
        parts.dropLast.all (fun q => q.getLast? == some ']') then
      '[' :: (parts.map stripBrackets).flatten ++ [']']
    else p
  else p

/-- The scan loop of `Optimizer.optimize_readability` (optimizer.py:163-177):
`prev` is `pattern[i-1]` of the *input*, the lookahead `pattern[i+1]` is
the head of `rest`; `'['`/`']'` toggle the in-class flag and are copied;
a `'|'` outside a class gets a space on each side unless the neighbouring
input character is already a space. -/
def readGo : Option Char → Bool → List Char → List Char
  | _, _, [] => []
  | prev, inClass, c :: rest =>
      if c = '[' then c :: readGo (some c) true rest
      else if c = ']' then c :: readGo (some c) false rest
      else if c = '|' ∧ inClass = false then
        (match prev with
         | some q => if q ≠ ' ' then [' '] else []
         | none => []) ++
        [c] ++
        (match rest with
         | d :: _ => if d ≠ ' ' then [' '] else []
         | [] => []) ++
        readGo (some c) inClass rest
      else c :: readGo (some c) inClass rest

/-- `Optimizer.optimize_readability` (optimizer.py:139-179). -/
def optimize_readability (p : List Char) : List Char :=
  if p = [] then p else readGo none false p

/-- `Optimizer.optimize_pattern` (optimizer.py:181-217): reject a priority
outside `{'size', 'readability'}`, minimize, then apply the readability
pass only under `'readability'`. -/
def optimize_pattern (p : List Char) (prioritize : String) :
    Except String (List Char) :=
  if prioritize ≠ "size" ∧ prioritize ≠ "readability" then
    .error "Priority must be size or readability"
  else
    let result := minimize_pattern p
    if prioritize = "readability" then .ok (optimize_readability result)
    else .ok result

theorem readGo_cons (prev : Option Char) (inClass : Bool) (c : Char)
    (rest : List Char) :
    readGo prev inClass (c :: rest) =
      if c = '[' then c :: readGo (some c) true rest
      else if c = ']' then c :: readGo (some c) false rest
      else if c = '|' ∧ inClass = false then
        (match prev with
         | some q => if q ≠ ' ' then [' '] else []
         | none => []) ++
        [c] ++
        (match rest with
         | d :: _ => if d ≠ ' ' then [' '] else []
         | [] => []) ++
        readGo (some c) inClass rest
      else c :: readGo (some c) inClass rest := rfl

/-- The readability pass never deletes characters: it copies every input
character and only inserts spaces, so its output is at least as long as
its input. -/
theorem readGo_length (l : List Char) : ∀ (prev : Option Char) (inClass : Bool),
    l.length ≤ (readGo prev inClass l).length := by
  induction l with
  | nil => intro prev inClass; simp [readGo]
  | cons c rest ih =>
      intro prev inClass
      rw [readGo_cons]
      by_cases h1 : c = '['
      · rw [if_pos h1]
        simpa using Nat.succ_le_succ (ih (some c) true)
      · rw [if_neg h1]
        by_cases h2 : c = ']'
        · rw [if_pos h2]
          simpa using Nat.succ_le_succ (ih (some c) false)
        · rw [if_neg h2]
          by_cases h3 : c = '|' ∧ inClass = false
          · rw [if_pos h3]
            have h := ih (some c) inClass
            simp only [List.length_append, List.length_cons, List.length_singleton]
            omega
          · rw [if_neg h3]
            simpa using Nat.succ_le_succ (ih (some c) inClass)

/-- Collapsing rewrites never fire on a one-character pattern, whatever
the character. -/
theorem minimize_single (c : Char) : minimize_pattern [c] = [c] := by
  have hA : ¬([c].head? = some '[' ∧ [c].getLast? = some ']' ∧
      (List.drop 1 [c]).dropLast.length = 1 ∧
      (List.drop 1 [c]).dropLast.head? ≠ some '\\') := by
    rintro ⟨ha, hb, -, -⟩
    simp only [List.head?_cons, Option.some.injEq] at ha
    simp only [List.getLast?_singleton, Option.some.injEq] at hb
    subst ha
    exact absurd hb (by decide)
  have hB : ¬("(?:".toList.isPrefixOf [c] ∧ [c].getLast? = some ')' ∧
      ¬ (List.drop 3 [c]).dropLast.contains '|') := by
    rintro ⟨hpre, hlast, -⟩
    simp only [List.getLast?_singleton, Option.some.injEq] at hlast
    subst hlast
    exact absurd hpre (by decide)
  have hC : ¬(hasBB [c] = true) := by simp [hasBB]
  unfold minimize_pattern
  rw [if_neg (by simp), if_neg hA, if_neg hB, if_neg hC]

end Optimizer

/-!
## C4 — `minimize_pattern` is not idempotent

One application performs one collapse step; when the collapsed content is
itself collapsible a second application reduces further:
`minimize('(?:[a])') = '[a]'` but `minimize('[a]') = 'a'`.
-/

/-- Counterexample to C4: applying `minimize_pattern` twice to
`'(?:[a])'` gives `'a'`, while one application gives `'[a]'` — the
function is not idempotent. -/
theorem C4_counterexample :
    Optimizer.minimize_pattern (Optimizer.minimize_pattern "(?:[a])".toList)
      ≠ Optimizer.minimize_pattern "(?:[a])".toList ∧
    Optimizer.minimize_pattern "(?:[a])".toList = "[a]".toList ∧
    Optimizer.minimize_pattern "[a]".toList = "a".toList ∧
    Optimizer.minimize_pattern (Optimizer.minimize_pattern "[]][[a]".toList)
      ≠ Optimizer.minimize_pattern "[]][[a]".toList := by decide

/-- C4 (amended): `minimize_pattern` is idempotent on every pattern that
does not begin with `'(?:'` and contains no `']['` — on such patterns a
single application either returns the input or collapses a one-character
class, and one-character outputs are fixed points.  (In general the
function is not idempotent: see the `'(?:[a])'` counterexample.) -/
theorem C4_theorem (p : List Char)
    (h1 : ("(?:".toList.isPrefixOf p) = false)
    (h2 : Optimizer.hasBB p = false) :
    Optimizer.minimize_pattern (Optimizer.minimize_pattern p)
      = Optimizer.minimize_pattern p := by
  by_cases h0 : p = []
  · subst h0; rfl
  · by_cases hb1 : p.head? = some '[' ∧ p.getLast? = some ']' ∧
        (p.drop 1).dropLast.length = 1 ∧ (p.drop 1).dropLast.head? ≠ some '\\'
    · have hout : Optimizer.minimize_pattern p = (p.drop 1).dropLast := by
        unfold Optimizer.minimize_pattern
        rw [if_neg h0, if_pos hb1]
      obtain ⟨-, -, hlen, -⟩ := hb1
      obtain ⟨c, hc⟩ := List.length_eq_one.mp hlen
      rw [hout, hc]
      exact Optimizer.minimize_single c
    · have hA : ¬("(?:".toList.isPrefixOf p ∧ p.getLast? = some ')' ∧
          ¬ (List.drop 3 p).dropLast.contains '|') := by
        rintro ⟨hpre, -, -⟩
        rw [h1] at hpre
        simp at hpre
      have hB : ¬(Optimizer.hasBB p = true) := by
        rw [h2]
        simp
      have hout : Optimizer.minimize_pattern p = p := by
        unfold Optimizer.minimize_pattern
        rw [if_neg h0, if_neg hb1, if_neg hA, if_neg hB]
      rw [hout, hout]

/-- Witness for C4 at `p = '[a]'`: the hypotheses hold and one
application (`'a'`) is a fixed point. -/
theorem C4_witness :
    (("(?:".toList.isPrefixOf "[a]".toList) = false ∧
      Optimizer.hasBB "[a]".toList = false) ∧
    Optimizer.minimize_pattern (Optimizer.minimize_pattern "[a]".toList)
      = Optimizer.minimize_pattern "[a]".toList :=
  ⟨⟨by decide, by decide⟩, C4_theorem "[a]".toList (by decide) (by decide)⟩

/-!
## C8 — size output never longer than readability output

`optimize_pattern(p, 'size')` is `minimize(p)`;
`optimize_pattern(p, 'readability')` is `optimize_readability` applied to
the same `minimize(p)`, and the readability scan only inserts characters.
-/

/-- C8: for every pattern `p`, both priorities succeed and the
`'size'` output is no longer than the `'readability'` output. -/
theorem C8_theorem (p : List Char) :
    ∃ s r : List Char,
      Optimizer.optimize_pattern p "size" = .ok s ∧
      Optimizer.optimize_pattern p "readability" = .ok r ∧
      s.length ≤ r.length := by
  refine ⟨Optimizer.minimize_pattern p,
    Optimizer.optimize_readability (Optimizer.minimize_pattern p), ?_, ?_, ?_⟩
  · unfold Optimizer.optimize_pattern
    rw [if_neg (by simp), if_neg (by simp)]
  · unfold Optimizer.optimize_pattern
    rw [if_neg (by simp), if_pos rfl]
  · unfold Optimizer.optimize_readability
    by_cases hm : Optimizer.minimize_pattern p = []
    · rw [if_pos hm]
    · rw [if_neg hm]
      exact Optimizer.readGo_length _ none false

namespace Optimizer

/-- The result dictionary of `Optimizer.benchmark_pattern`
(optimizer.py:289-300): the success keys, or — on `re.error` — an error
description, the raw pattern length, and an iteration count of zero. -/
structure BenchmarkResult where
  error : Option String
  pattern_size : Nat
  iterations : Nat
  avg_match_time : Option ℚ

/-- `Optimizer.benchmark_pattern` (optimizer.py:248-300), parameterised
over the host regex engine's compiler (`re.compile`) and the measured
wall-clock duration of the matching loop (`time.time()` differences),
both external to the core per the spec's scope.  The Python wraps the
whole body in `try/except re.error`: a failed compilation yields the
error dictionary instead of raising; otherwise the loop runs and the
dictionary reports `len(pattern)`, the mean per-iteration time and the
iteration count. -/
def benchmark_pattern {Regex : Type} (compile : String → Except String Regex)
    (elapsed : ℚ) (pattern test_string : String) (iterations : Nat) :
    BenchmarkResult :=
  match compile pattern, test_string with
  | .error e, _ =>
      { error := some e, pattern_size := pattern.length, iterations := 0,
        avg_match_time := none }
  | .ok _, _ =>
      { error := none, pattern_size := pattern.length,
        iterations := iterations,
        avg_match_time := some (elapsed / (iterations : ℚ)) }

end Optimizer

/-!
## C9 — `benchmark_pattern` on a malformed pattern

The `except re.error` arm (optimizer.py:295-300) converts a compilation
failure into a reported value.
-/

/-- C9: for every pattern the host engine fails to compile,
`benchmark_pattern` never raises: it returns a result carrying the error
description, the raw pattern's length, and an iteration count of zero. -/
theorem C9_theorem {Regex : Type} (compile : String → Except String Regex)
    (elapsed : ℚ) (pattern test_string : String) (iterations : Nat)
    (e : String) (h : compile pattern = .error e) :
    Optimizer.benchmark_pattern compile elapsed pattern test_string iterations
      = { error := some e, pattern_size := pattern.length, iterations := 0,
          avg_match_time := none } := by
  unfold Optimizer.benchmark_pattern
  rw [h]

/-- Witness for C9: a compiler that rejects `'['` (as `re.compile` does). -/
theorem C9_witness :
    ((fun _ : String =>
        (.error "unterminated character set" : Except String Unit)) "["
      = .error "unterminated character set") ∧
    Optimizer.benchmark_pattern
        (fun _ : String =>
          (.error "unterminated character set" : Except String Unit))
        0 "[" "abc" 1000
      = { error := some "unterminated character set", pattern_size := 1,
          iterations := 0, avg_match_time := none } :=
  ⟨rfl, C9_theorem (fun _ => .error "unterminated character set") 0 "[" "abc"
    1000 "unterminated character set" rfl⟩

namespace Regen

/-!
## `regen.RegexGenerator` (regen/regex_generator.py)

Literal strings are embedded as `List Char`.
-/

/-- The characters escaped by CPython's `re.escape`
(`re._special_chars_map`, Python ≥ 3.7): `()[]{}?*+-|^$\.&~#` and the
ASCII whitespace characters. -/
def reSpecial (c : Char) : Bool :=
  c ∈ ['(', ')', '[', ']', '{', '}', '?', '*', '+', '-', '|', '^', '$',
       '\\', '.', '&', '~', '#', ' ', '\t', '\n', '\r', '\x0b', '\x0c']

/-- Python `re.escape`: prepend a backslash to every special character. -/
def reEscape (l : List Char) : List Char :=
  (l.map fun c => if reSpecial c then ['\\', c] else [c]).flatten

/-- `RegexGenerator.create_alternation` (regen/regex_generator.py:26-49):
empty input → empty string; one input → its escape; otherwise the escaped
inputs joined with `'|'` inside a non-capturing group. -/
def create_alternation (patterns : List (List Char)) : List Char :=
  match patterns with
  | [] => []
  | [p] => reEscape p
  | _ => '(' :: '?' :: ':' ::
      (List.intercalate ['|'] (patterns.map reEscape) ++ [')'])

/-- The prefix-shrinking loop of `create_optimized_pattern`
(regen/regex_generator.py:86-90): drop the candidate's last character
until it is a prefix of `s` (the empty candidate breaks the loop).  The
fuel — initially the candidate's length — bounds the loop; the
zero-fuel fallback is unreachable because the empty list is a prefix of
everything. -/
def shrinkPreFuel : Nat → List Char → List Char → List Char
  | 0, cand, s => if cand.isPrefixOf s then cand else []
  | n + 1, cand, s =>
      if cand.isPrefixOf s then cand else shrinkPreFuel n cand.dropLast s

/-- One `for s in strings[1:]` step of the common-prefix computation. -/
def shrinkPre (cand s : List Char) : List Char :=
  shrinkPreFuel cand.length cand s

/-- Python `sorted({s[i] for s in suffixes})`: the ascending list of the
distinct characters at position `i` (positions are valid whenever the
caller's equal-length guard holds; the default is never selected
there). -/
def charsAt (sufs : List (List Char)) (i : Nat) : List Char :=
  List.insertionSort (· ≤ ·) ((sufs.map fun s => s.getD i ' ').eraseDups)

/-- The per-position scan (regen/regex_generator.py:96-100): record
position `i` (with its sorted distinct characters) when every character
seen at `i` is a decimal digit.  (`str.isdigit` is modelled on the ASCII
digits; every character the claims evaluate is ASCII.) -/
def numericPositions (sufs : List (List Char)) (n : Nat) :
    List (Nat × List Char) :=
  (List.range n).filterMap fun i =>
    let chars := charsAt sufs i
    if chars.all Char.isDigit then some (i, chars) else none

/-- The result-building loop (regen/regex_generator.py:103-112): emit the
escaped literal run before each recorded position, then a bracket class
of its digits; finish with the escaped tail of the first suffix. -/
def buildGo (suf0 : List Char) : List (Nat × List Char) → List Char → Nat →
    List Char
  | [], acc, pos =>
      acc ++ (if pos < suf0.length then reEscape (suf0.drop pos) else [])
  | (i, chars) :: rest, acc, pos =>
      buildGo suf0 rest
        (acc ++ (if pos < i then reEscape ((suf0.drop pos).take (i - pos))
          else []) ++ '[' :: (chars ++ [']'])) (i + 1)

/-- `RegexGenerator.create_optimized_pattern`
(regen/regex_generator.py:51-115): longest common prefix by shrinking;
when it is non-empty, the suffixes all have equal length, and at least one
position holds only digits, build `escape(prefix)` + literal/class
segments (literal runs come from the *first* suffix); otherwise fall back
to `create_alternation`. -/
def create_optimized_pattern (strings : List (List Char)) : List Char :=
  match strings with
  | [] => []
  | [s] => reEscape s
  | first :: rest =>
      let cand := rest.foldl shrinkPre first
      if cand = [] then create_alternation (first :: rest)
      else
        let sufs := (first :: rest).map (List.drop cand.length)
        let suf0 := first.drop cand.length
        if sufs.all fun s => s.length == suf0.length then
          let ps := numericPositions sufs suf0.length
          if ps = [] then create_alternation (first :: rest)
          else buildGo suf0 ps (reEscape cand) 0
        else create_alternation (first :: rest)

end Regen

/-!
## C5 — mixed numeric/non-numeric differences

`create_optimized_pattern` falls back to alternation only when *no*
suffix position is all-digits (regen/regex_generator.py:102); a varying
non-digit position combined with an all-digit position makes it emit the
first suffix's characters at the varying position, producing a pattern
that cannot match the other inputs.  The repository's own test
(`src/tests/test_regex_generator.py::test_mixed_patterns`) expects the
alternation `(?:test1a|test2b|test3c)` for exactly this shape of input.
-/

/-- C5 (code bug): on `["test1a", "test2b", "test3c"]` — common prefix
`"test"`, equal-length suffixes, position 0 all digits, position 1
varying among non-digits — `create_optimized_pattern` returns
`"test[123]a"` (which cannot match `"test2b"` or `"test3c"`) instead of
falling back to the alternation used by `create_alternation`. -/
theorem C5_theorem :
    Regen.create_optimized_pattern
        ["test1a".toList, "test2b".toList, "test3c".toList]
      = "test[123]a".toList ∧
    Regen.create_alternation ["test1a".toList, "test2b".toList, "test3c".toList]
      = "(?:test1a|test2b|test3c)".toList ∧
    Regen.create_optimized_pattern
        ["test1a".toList, "test2b".toList, "test3c".toList]
      ≠ Regen.create_alternation
          ["test1a".toList, "test2b".toList, "test3c".toList] := by decide

end UnicodeRegex
